import Mathlib

/-!
Shallow embedding of `app/core/ai_agent.py` (Multi-AI-Agent-Project).

Strings are modelled as `List Char`.  Each definition carries a comment
pointing at the source lines it embeds.  External collaborators (the Groq
chat model, the Tavily search tool, the langgraph agent loop, the HTML
transformer and the structured output parser) are modelled as oracles in an
`Env` record: each oracle result is an `Except PyErr _`, mirroring the fact
that the corresponding Python call either returns a value or raises.
-/

namespace AiAgent

/-- Whitespace as matched by Python's "\s" (re, Unicode) and by
`str.strip` / `str.rstrip` / `str.isspace`: ASCII whitespace together with
the Unicode whitespace code points. -/
def pySpace (c : Char) : Bool :=
  c = ' ' || c = '\t' || c = '\n' || c = '\x0b' || c = '\x0c' || c = '\r' ||
  c = '\x1c' || c = '\x1d' || c = '\x1e' || c = '\x1f' || c = '\x85' || c = '\xa0' ||
  c = '\u1680' || c = '\u2000' || c = '\u2001' || c = '\u2002' || c = '\u2003' ||
  c = '\u2004' || c = '\u2005' || c = '\u2006' || c = '\u2007' || c = '\u2008' ||
  c = '\u2009' || c = '\u200a' || c = '\u2028' || c = '\u2029' || c = '\u202f' ||
  c = '\u205f' || c = '\u3000'

/-- Python `str.lstrip()` (no argument): drop leading whitespace. -/
def lstrip (l : List Char) : List Char := l.dropWhile pySpace

/-- Python `str.rstrip()` (no argument): drop trailing whitespace
(used per line at ai_agent.py line 44). -/
def rstrip (l : List Char) : List Char := (l.reverse.dropWhile pySpace).reverse

/-- Python `str.strip()` (no argument): drop whitespace at both ends
(ai_agent.py line 44, end of `_normalize_text`). -/
def strip (l : List Char) : List Char := lstrip (rstrip l)

/-- One attempted match of `_BR_RE = re.compile(r"<\s*br\s*/?\s*>", re.IGNORECASE)`
(ai_agent.py line 25) anchored at the head of the list.  Returns the
remainder after the match.  The quantifiers are deterministic here because
`b`, `r`, `/`, `>` are not whitespace, so each greedy run of whitespace is
uniquely determined. -/
def brMatch : List Char → Option (List Char)
  | '<' :: r =>
    match r.dropWhile pySpace with
    | b :: r2 =>
      if b = 'b' || b = 'B' then
        match r2 with
        | rc :: r3 =>
          if rc = 'r' || rc = 'R' then
            let r4 := r3.dropWhile pySpace
            let r5 := match r4 with
              | '/' :: t => t
              | _ => r4
            match r5.dropWhile pySpace with
            | '>' :: rest => some rest
            | _ => none
          else none
        | [] => none
      else none
    | [] => none
  | _ => none

/-- Left-to-right, non-overlapping substitution of `_BR_RE` by a newline:
`_BR_RE.sub("\n", s)` at ai_agent.py line 41.  Fuel is the length of the
list; each step consumes at least one character, so the fuel suffices. -/
def brSubAux : Nat → List Char → List Char
  | 0, l => l
  | _, [] => []
  | fuel + 1, c :: cs =>
    match brMatch (c :: cs) with
    | some rest => '\n' :: brSubAux fuel rest
    | none => c :: brSubAux fuel cs

/-- The substitution `_BR_RE.sub("\n", s)` (ai_agent.py line 41). -/
def brSub (l : List Char) : List Char := brSubAux l.length l

/-- The replacement `s.replace("\r\n", "\n").replace("\r", "\n")` (ai_agent.py line 42):
each "\r\n" pair becomes one "\n", every remaining "\r" becomes "\n". -/
def replCR : List Char → List Char
  | [] => []
  | [c] => if c = '\r' then ['\n'] else [c]
  | c :: d :: rest =>
    if c = '\r' then
      if d = '\n' then '\n' :: replCR rest
      else '\n' :: replCR (d :: rest)
    else c :: replCR (d :: rest)

/-- Flush of a pending newline run for `msub`: a run of `k` newlines is
emitted as `min k 2` newlines, which is exactly the effect of
`re.sub(r"\n{3,}", "\n\n", s)` on a maximal run (runs of length ≤ 2 are
left alone, longer runs collapse to two). -/
def msubFlush (k : Nat) : List Char := List.replicate (min k 2) '\n'

/-- State-machine form of `_MULTIBLANK_RE.sub("\n\n", s)`
(ai_agent.py lines 24 and 43): `k` counts the pending run of consecutive
newlines. -/
def msubGo : Nat → List Char → List Char
  | k, [] => msubFlush k
  | k, c :: rest =>
    if c = '\n' then msubGo (k + 1) rest
    else msubFlush k ++ c :: msubGo 0 rest

/-- The substitution `re.sub(r"\n\x7b3,\x7d", "\n\n", s)` (ai_agent.py line 43). -/
def msub (l : List Char) : List Char := msubGo 0 l

/-- Python `s.split("\n")` (single-character separator semantics):
`"".split("\n") == [""]`, a trailing separator yields a trailing empty part.
The `[]` arm of the inner match is unreachable (`splitNl` never returns
the empty list). -/
def splitNl : List Char → List (List Char)
  | [] => [[]]
  | c :: rest =>
    match splitNl rest with
    | [] => [[]]
    | h :: t => if c = '\n' then [] :: h :: t else (c :: h) :: t

/-- Python `"\n".join(parts)`. -/
def joinNl : List (List Char) → List Char
  | [] => []
  | [l] => l
  | l :: l' :: ls => l ++ '\n' :: joinNl (l' :: ls)

/-- The expression `"\n".join(line.rstrip() for line in s.split("\n"))` written as a single
right-to-left pass: a non-newline whitespace character is dropped exactly
when nothing else of its line survives to its right (that is, it is part of
the trailing whitespace of its line).  `bridge_rstrip_lines` below proves
this equal to the split/rstrip/join composition used in `normalize_text`. -/
def rstripLines : List Char → List Char
  | [] => []
  | c :: rest =>
    if c = '\n' then '\n' :: rstripLines rest
    else if pySpace c && ((rstripLines rest).headD '\n' = '\n') then rstripLines rest
    else c :: rstripLines rest

/-- The function `_normalize_text` (ai_agent.py lines 37-44): empty guard, `<br>` → "\n",
line-ending unification, collapse of 3-or-more newlines to two, per-line
right trim, whole-string trim. -/
def normalize_text (s : List Char) : List Char :=
  if s = [] then []
  else strip (joinNl ((splitNl (msub (replCR (brSub s)))).map rstrip))

/-! ### URL extraction and source summarisation -/

/-- A Python exception, as observed by the `try`/`except` structure of the
code: `except TypeError:` (line 132) distinguishes `TypeError` from
everything else. -/
inductive PyErr
  | typeError
  | exn (code : Nat)
deriving DecidableEq


deriving instance DecidableEq for Except

/-- Characters that terminate a URL match of
`_URL_RE = re.compile(r"https?://[^\s\]\)\}<>\"']+")` (ai_agent.py line 23):
whitespace, closing brackets, angle brackets and quotes. -/
def urlStop (c : Char) : Bool :=
  pySpace c || c = ']' || c = ')' || c = '\x7d' || c = '<' || c = '>' ||
  c = '"' || c = '\''

/-- Length of the scheme prefix matched by `https?://` at the head of the
list (8 for "https://", 7 for "http://", none otherwise).  The pattern has
no IGNORECASE flag, so the match is case sensitive. -/
def matchUrlScheme (l : List Char) : Option Nat :=
  if "https://".toList.isPrefixOf l then some 8
  else if "http://".toList.isPrefixOf l then some 7
  else none

/-- The call `_URL_RE.findall` (ai_agent.py lines 23 and 46-47): leftmost,
non-overlapping, greedy matches.  Fuel is the length of the input; each
step consumes at least one character. -/
def extractUrlsAux : Nat → List Char → List (List Char)
  | 0, _ => []
  | _, [] => []
  | fuel + 1, c :: rest =>
    match matchUrlScheme (c :: rest) with
    | some k =>
      let after := (c :: rest).drop k
      let body := after.takeWhile (fun ch => !urlStop ch)
      if body = [] then extractUrlsAux fuel rest
      else ((c :: rest).take k ++ body) :: extractUrlsAux fuel (after.drop body.length)
    | none => extractUrlsAux fuel rest

/-- The function `_extract_urls` (ai_agent.py lines 46-47).  The `text or ""` guard is
subsumed: the empty list has no matches. -/
def extract_urls (t : List Char) : List (List Char) := extractUrlsAux t.length t

/-- WHATWG-style control characters stripped from both ends of a URL by
CPython `urllib.parse.urlsplit` (code points up to U+0020). -/
def c0OrSpace (c : Char) : Bool := c.toNat ≤ 32

/-- Characters allowed in a URL scheme after the first letter
(CPython `scheme_chars`): ASCII alphanumerics and `+`, `-`, `.`. -/
def schemeChar (c : Char) : Bool :=
  c.isAlphanum || c = '+' || c = '-' || c = '.'

/-- The `netloc` computation of CPython `urllib.parse.urlsplit`
(as called via `urlparse(url).netloc` at ai_agent.py line 55): strip
C0-control/space from both ends, remove tab/CR/LF, split off a valid
scheme before the first ':', and if the remainder starts with "//" read
the netloc up to the next '/', '?' or '#'.  A netloc containing exactly
one of '[' / ']' raises `ValueError("Invalid IPv6 URL")`, modelled as
`PyErr.exn 1`.  (The deeper bracketed-host validation added in newer
CPython versions is not modelled; no claim depends on it.) -/
def urlparseNetloc (url : List Char) : Except PyErr (List Char) :=
  let u0 := ((url.dropWhile c0OrSpace).reverse.dropWhile c0OrSpace).reverse
  let u1 := u0.filter (fun c => !(c = '\t') && !(c = '\r') && !(c = '\n'))
  let body :=
    match u1.findIdx? (fun c => c = ':') with
    | some i =>
      if 0 < i && (u1.headD ' ').isAlpha && (u1.headD ' ').toNat < 128
          && ((u1.take i).drop 1).all schemeChar
      then u1.drop (i + 1) else u1
    | none => u1
  if body.take 2 = ['/', '/'] then
    let netloc := (body.drop 2).takeWhile (fun c => !(c = '/') && !(c = '?') && !(c = '#'))
    if (netloc.contains '[' ≠ netloc.contains ']') then Except.error (PyErr.exn 1)
    else Except.ok netloc
  else Except.ok []

/-- The statement `if dom.startswith("www."): dom = dom[4:]` (ai_agent.py lines 56-57). -/
def stripWww (dom : List Char) : List Char :=
  if "www.".toList.isPrefixOf dom then dom.drop 4 else dom

/-- The per-URL computation of the `_summarize_sources` loop body
(ai_agent.py lines 53-59): `none` when parsing raises or the normalised
domain is empty (such URLs are skipped), otherwise the `(domain, url)` key
that is appended if not yet seen. -/
def sourceKey (url : List Char) : Option (List Char × List Char) :=
  match urlparseNetloc url with
  | Except.error _ => none
  | Except.ok netloc =>
    let dom := stripWww (netloc.map Char.toLower)
    if dom = [] then none else some (dom, url)

/-- The loop of `_summarize_sources` (ai_agent.py lines 53-65).  `picked`
is the accumulator of already-emitted pairs (the Python `seen` set always
holds exactly the members of `picked`, since the key is the pair itself);
the function returns the pairs still to be emitted.  The `break` fires
after appending once `len(picked) >= limit`. -/
def sumGo (limit : Nat) :
    List (List Char) → List (List Char × List Char) → List (List Char × List Char)
  | [], _ => []
  | url :: rest, picked =>
    match urlparseNetloc url with
    | Except.error _ => sumGo limit rest picked
    | Except.ok netloc =>
      let dom := stripWww (netloc.map Char.toLower)
      if dom ≠ [] ∧ (dom, url) ∉ picked then
        (dom, url) ::
          (if picked.length + 1 ≥ limit then []
           else sumGo limit rest (picked ++ [(dom, url)]))
      else sumGo limit rest picked

/-- The function `_summarize_sources` (ai_agent.py lines 49-66). -/
def summarize_sources (urls : List (List Char)) (limit : Nat) :
    List (List Char × List Char) :=
  sumGo limit urls []

/-- Specification-side first-occurrence deduplication, generalised over an
initial set `seen` of already-emitted elements. -/
def dedupSkip (seen : List (List Char × List Char)) :
    List (List Char × List Char) → List (List Char × List Char)
  | [] => []
  | p :: rest =>
    if p ∈ seen then dedupSkip seen rest
    else p :: dedupSkip (seen ++ [p]) rest

/-- Specification-side deduplication keeping first occurrences. -/
def firstDedup (l : List (List Char × List Char)) : List (List Char × List Char) :=
  dedupSkip [] l

/-! ### Tool-call artifact detector -/

/-- The keyword alternation of `_TOOLCALL_INLINE_RE` (ai_agent.py
lines 28-35): `function|tool|tavily[_-]?\w*|search`, checked on the
lower-cased input (IGNORECASE).  The `[_-]?\w*` continuation of the
`tavily` branch is subsumed by the `[^>]*` that follows in the pattern,
since word characters, whitespace and `[_-]` are all distinct from '>'. -/
def toolKeyword (l : List Char) : Bool :=
  "function".toList.isPrefixOf l || "tool".toList.isPrefixOf l ||
  "tavily".toList.isPrefixOf l || "search".toList.isPrefixOf l

/-- Existence of a match of `_TOOLCALL_INLINE_RE` anchored at the head:
'<', then maximal whitespace, then a keyword, then (via `\s*[^>]*`)
anything up to the first '>', then whitespace, then '{', then (DOTALL
`.*`) anything, then '}'.  Since `\s*` and `[^>]*` cannot cross a '>',
and `\s*` before '{' cannot skip non-whitespace, the existence of a match
reduces to this deterministic scan. -/
def toolcallMatchAt : List Char → Bool
  | '<' :: r =>
    let r2 := r.dropWhile pySpace
    if toolKeyword (r2.map Char.toLower) then
      match r2.dropWhile (fun c => !(c = '>')) with
      | '>' :: b =>
        (match b.dropWhile pySpace with
         | '\x7b' :: cc => cc.contains '\x7d'
         | _ => false)
      | _ => false
    else false
  | _ => false

/-- The function `_looks_like_toolcall_text` (ai_agent.py lines 86-90):
`_TOOLCALL_INLINE_RE.search` succeeds somewhere in the string.  The
empty-string guard is subsumed (no match in the empty string). -/
def looks_like_toolcall_text (s : List Char) : Bool :=
  s.tails.any toolcallMatchAt

/-! ### Transcript messages and the external-collaborator oracles -/

/-- Message roles in the transcript (ai_agent.py models these via
`isinstance` checks and the `ToolMessage` class / `type == "tool"` dict
shape; see `_is_tool_message` lines 68-77 and the scan at 158-167). -/
inductive Role
  | system
  | human
  | ai
  | tool
deriving DecidableEq

/-- One transcript message: role, text content, and whether an ai-role
message carries a truthy `tool_calls` attribute. -/
structure Msg where
  role : Role
  content : List Char
  toolCalls : Bool
deriving DecidableEq

/-- Result of `fixing_parser.parse` (line 246): the three structured
fields.  `bullets` / `references` are `none` when the field is absent,
falsy, or not a list (all of which suppress the corresponding section at
lines 250-256). -/
structure SynthParsed where
  answer : List Char
  bullets : Option (List (List Char))
  references : Option (List (List Char))
deriving DecidableEq

/-- The data fed into the synthesis `llm.invoke` call (lines 205-241):
the cleaned tool chunks, the whitelisted sources, the agent draft and the
last user question.  (The literal prompt strings built from these are not
modelled; the model reply is an oracle of this data.) -/
structure SynthRequest where
  toolChunks : List (List Char)
  sources : List (List Char × List Char)
  draft : List Char
  question : List Char
deriving DecidableEq

/-- Oracles for every external call `get_response_from_ai_agents` makes.
Each `Except` models "returned normally" versus "raised". -/
structure Env where
  /-- The construction `ChatGroq(model=llm_id, temperature=0.2)` (line 124). -/
  chatGroq : Except PyErr Unit
  /-- The construction `TavilySearch(...)` (lines 100-105). -/
  tavilyInit : Except PyErr Unit
  /-- The call `create_react_agent(..., prompt=system_prompt)` (line 131). -/
  agentPromptArg : Except PyErr Unit
  /-- The call `create_react_agent(..., state_modifier=system_prompt)` (line 133). -/
  agentStateModifierArg : Except PyErr Unit
  /-- The call `agent.invoke(state, ...)` followed by `state.get("messages", [])`
  (lines 143-144): the transcript. -/
  agentInvoke : Except PyErr (List Msg)
  /-- Whether the optional HTML transformer imported (lines 14-19). -/
  hasHtmlTx : Bool
  /-- The call `Html2TextTransformer().transform_documents` on the normalised raw
  chunks (lines 176-179), returning the cleaned page contents. -/
  htmlTransform : List (List Char) → Except PyErr (List (List Char))
  /-- The call `llm.invoke(synthesis_prompt)` then
  `getattr(raw, "content", "") if raw else ""` (lines 244-245). -/
  llmInvoke : SynthRequest → Except PyErr (List Char)
  /-- The call `fixing_parser.parse(content)` (line 246), including the internal
  self-correcting re-parse pass. -/
  fixingParse : List Char → Except PyErr SynthParsed

/-- Result of one embedded run: the returned string and whether the
synthesis model call was reached. -/
structure RunOut where
  ret : List Char
  synthCalled : Bool
deriving DecidableEq

/-- The helper `_is_tool_message` (ai_agent.py lines 68-77). -/
def is_tool_message (m : Msg) : Bool :=
  match m.role with
  | Role.tool => true
  | _ => false

/-- The `used_tools` flag of the scan at lines 147-152. -/
def used_tools_of (msgs : List Msg) : Bool := msgs.any is_tool_message

/-- The `raw_chunks` of the scan at lines 147-152 (in transcript order). -/
def raw_chunks_of (msgs : List Msg) : List (List Char) :=
  (msgs.filter is_tool_message).map Msg.content

/-- The reverse transcript scan at lines 154-167, on an already-reversed
list: the first ai-role message without tool calls whose normalised
content is non-empty and not artifact-like wins; otherwise keep scanning.
(The `final_ai_looks_like_toolcall` flag set at line 166 is never read
afterwards and is omitted.) -/
def finalAiScan : List Msg → List Char
  | [] => []
  | m :: rest =>
    match m.role, m.toolCalls with
    | Role.ai, false =>
      let candidate := normalize_text m.content
      if !candidate.isEmpty && !looks_like_toolcall_text candidate then candidate
      else finalAiScan rest
    | _, _ => finalAiScan rest

/-- The value `final_ai_text` after the loop `for m in reversed(out_messages)`
(lines 154-167). -/
def final_ai_text_of (msgs : List Msg) : List Char := finalAiScan msgs.reverse

/-- The function `_make_tools` (ai_agent.py lines 95-108): empty when search is not
allowed; the Tavily construction failure is caught and yields the empty
tool list. -/
def make_tools (allow_search : Bool) (env : Env) : List Unit :=
  if !allow_search then []
  else
    match env.tavilyInit with
    | Except.ok t => [t]
    | Except.error _ => []

/-- The `try`/`except TypeError` around `create_react_agent`
(lines 130-133): a `TypeError` from the `prompt=` form falls back to the
`state_modifier=` form; any other exception propagates. -/
def create_agent_result (env : Env) : Except PyErr Unit :=
  match env.agentPromptArg with
  | Except.ok a => Except.ok a
  | Except.error PyErr.typeError => env.agentStateModifierArg
  | Except.error e => Except.error e

/-- The `tool_chunks` (lines 173-183): HTML-to-text cleaning of the normalised
raw chunks when the transformer is available, with the exception caught
and replaced by the plain normalised chunks. -/
def tool_chunks_of (env : Env) (msgs : List Msg) : List (List Char) :=
  let raw := raw_chunks_of msgs
  if env.hasHtmlTx && !raw.isEmpty then
    match env.htmlTransform (raw.map normalize_text) with
    | Except.ok docs => docs
    | Except.error _ => raw.map normalize_text
  else raw.map normalize_text

/-- The data assembled for the synthesis call (lines 185-241): URLs are
extracted from every tool chunk in order (`all_urls.extend`), whitelisted
via `_summarize_sources(all_urls, limit=5)`; the draft is `final_ai_text`
and the question `messages[-1] if messages else ""`. -/
def synth_request_of (env : Env) (msgs : List Msg) (messages : List (List Char)) :
    SynthRequest :=
  let chunks := tool_chunks_of env msgs
  let allUrls := chunks.foldl (fun acc t => acc ++ extract_urls t) []
  ⟨chunks, summarize_sources allUrls 5, final_ai_text_of msgs, messages.getLastD []⟩

/-- The "Key points" section (lines 250-252): appended exactly when the
`bullets` field is a non-empty list; each bullet is stripped, empty
bullets are skipped, the rest are rendered as "- ..." lines. -/
def bullets_section (bullets : Option (List (List Char))) : List Char :=
  match bullets with
  | some bs =>
    if !bs.isEmpty then
      "\n\n**Key points**\n".toList ++
        joinNl (((bs.map strip).filter (fun b => !b.isEmpty)).map
          (fun b => "- ".toList ++ b))
    else []
  | none => []

/-- The "References" section (lines 254-256), same rendering as
`bullets_section`. -/
def references_section (refs : Option (List (List Char))) : List Char :=
  match refs with
  | some rs =>
    if !rs.isEmpty then
      "\n\n**References**\n".toList ++
        joinNl (((rs.map strip).filter (fun b => !b.isEmpty)).map
          (fun b => "- ".toList ++ b))
    else []
  | none => []

/-- The value `out` as composed at lines 247-256: the normalised `answer`, then the
optional sections. -/
def compose_synth (data : SynthParsed) : List Char :=
  normalize_text data.answer ++
    bullets_section data.bullets ++ references_section data.references

/-- The fixed last-resort string returned at line 265. -/
def apology_text : List Char :=
  "I couldn\u2019t complete the web-search step just now, so I answered from general knowledge.".toList

/-- The entry point `get_response_from_ai_agents` (ai_agent.py lines 113-265).  The
returned `synthCalled` flag records whether the synthesis `llm.invoke`
call at line 244 was reached.  Exceptions from the model-client
construction (line 124), agent creation (lines 130-133) and the reasoning
loop invocation (line 143) propagate; everything from line 146 on either
returns or is caught by the `except` at line 259. -/
def get_response_from_ai_agents (env : Env) (llm_id : List Char)
    (messages : List (List Char)) (allow_search : Bool) (system_prompt : List Char) :
    Except PyErr RunOut :=
  match env.chatGroq with
  | Except.error e => Except.error e
  | Except.ok _ =>
    let _tools := make_tools allow_search env
    match create_agent_result env with
    | Except.error e => Except.error e
    | Except.ok _ =>
      match env.agentInvoke with
      | Except.error e => Except.error e
      | Except.ok outMessages =>
        let finalAiText := final_ai_text_of outMessages
        if !used_tools_of outMessages && !finalAiText.isEmpty then
          Except.ok ⟨finalAiText, false⟩
        else
          match env.llmInvoke (synth_request_of env outMessages messages) with
          | Except.error _ =>
            Except.ok ⟨if !finalAiText.isEmpty && !looks_like_toolcall_text finalAiText
                       then finalAiText else apology_text, true⟩
          | Except.ok content =>
            match env.fixingParse content with
            | Except.error _ =>
              Except.ok ⟨if !finalAiText.isEmpty && !looks_like_toolcall_text finalAiText
                         then finalAiText else apology_text, true⟩
            | Except.ok data =>
              let out := compose_synth data
              Except.ok ⟨if (strip out).isEmpty then finalAiText else strip out, true⟩

/-! ### Concrete inputs and environments used by witnesses -/

/-- A clean final ai-message, for the fast-path witness. -/
def msgParis : Msg := ⟨Role.ai, "Paris is the capital of France.".toList, false⟩

/-- A tool-result message, forcing the synthesis path. -/
def msgTool : Msg := ⟨Role.tool, "some tool output".toList, false⟩

/-- A sample parsed synthesis result. -/
def dataSample : SynthParsed :=
  ⟨"Answer text".toList, some ["point one".toList], none⟩

/-- Environment whose model-client construction raises. -/
def cexEnvGroqFail : Env :=
  ⟨Except.error (PyErr.exn 0), Except.ok (), Except.ok (), Except.ok (), Except.ok [],
   false, fun _ => Except.ok [], fun _ => Except.error (PyErr.exn 0),
   fun _ => Except.error (PyErr.exn 0)⟩

/-- Environment whose pre-synthesis stages all succeed (empty transcript,
failing synthesis oracles). -/
def envAllOk : Env :=
  ⟨Except.ok (), Except.ok (), Except.ok (), Except.ok (), Except.ok [],
   false, fun _ => Except.ok [], fun _ => Except.error (PyErr.exn 0),
   fun _ => Except.error (PyErr.exn 0)⟩

/-- Environment returning a transcript with a single clean ai-message. -/
def envFastPath : Env :=
  ⟨Except.ok (), Except.ok (), Except.ok (), Except.ok (), Except.ok [msgParis],
   false, fun _ => Except.ok [], fun _ => Except.error (PyErr.exn 0),
   fun _ => Except.error (PyErr.exn 0)⟩

/-- Environment with one tool message and a failing synthesis model call. -/
def envSynthFail : Env :=
  ⟨Except.ok (), Except.ok (), Except.ok (), Except.ok (), Except.ok [msgTool],
   false, fun _ => Except.ok [], fun _ => Except.error (PyErr.exn 0),
   fun _ => Except.error (PyErr.exn 0)⟩

/-- Environment with one tool message and a successful synthesis parse. -/
def envParseOk : Env :=
  ⟨Except.ok (), Except.ok (), Except.ok (), Except.ok (), Except.ok [msgTool],
   false, fun _ => Except.ok [], fun _ => Except.ok ("raw model reply".toList),
   fun _ => Except.ok dataSample⟩

/-! ### Facts about the trimming helpers -/

theorem dropWhile_cons_head {p : Char → Bool} {l t : List Char} {c : Char}
    (h : l.dropWhile p = c :: t) : p c = false := by
  have := List.head?_dropWhile_not p l
  rw [h] at this
  simpa using this

theorem dropWhile_dropWhile {p : Char → Bool} (l : List Char) :
    (l.dropWhile p).dropWhile p = l.dropWhile p := by
  cases h : l.dropWhile p with
  | nil => simp
  | cons c t =>
    have hc := dropWhile_cons_head h
    simp [List.dropWhile_cons, hc]

theorem lstrip_idem (l : List Char) : lstrip (lstrip l) = lstrip l :=
  dropWhile_dropWhile l

theorem rstrip_idem (l : List Char) : rstrip (rstrip l) = rstrip l := by
  unfold rstrip
  rw [List.reverse_reverse, dropWhile_dropWhile]

theorem rstrip_cons (c : Char) (h : List Char) :
    rstrip (c :: h) = if pySpace c ∧ rstrip h = [] then [] else c :: rstrip h := by
  unfold rstrip
  rw [List.reverse_cons, List.dropWhile_append]
  by_cases he : (h.reverse.dropWhile pySpace).isEmpty
  · rw [if_pos he]
    have hnil : h.reverse.dropWhile pySpace = [] := by simpa using he
    by_cases hc : pySpace c
    · simp [List.dropWhile_cons, hc, hnil]
    · simp [List.dropWhile_cons, hc, hnil]
  · rw [if_neg he]
    have hne : h.reverse.dropWhile pySpace ≠ [] := by simpa using he
    rw [List.reverse_append, if_neg]
    · simp
    · rintro ⟨_, h2⟩
      exact hne (by simpa using congrArg List.reverse h2)

theorem rstrip_head? (l : List Char) (h : rstrip l ≠ []) :
    (rstrip l).head? = l.head? := by
  cases l with
  | nil => simp [rstrip] at h
  | cons c t =>
    rw [rstrip_cons] at h ⊢
    by_cases hc : pySpace c ∧ rstrip t = []
    · rw [if_pos hc] at h; exact absurd rfl h
    · rw [if_neg hc]; simp

theorem rstrip_fixed_of_lstrip (m : List Char) (hm : rstrip m = m) :
    rstrip (lstrip m) = lstrip m := by
  induction m with
  | nil => simp [lstrip, rstrip]
  | cons c t ih =>
    by_cases hc : pySpace c
    · have ht : rstrip t = t := by
        rw [rstrip_cons] at hm
        by_cases h2 : pySpace c ∧ rstrip t = []
        · rw [if_pos h2] at hm; cases hm
        · rw [if_neg h2] at hm
          exact (List.cons_eq_cons.mp hm).2
      have : lstrip (c :: t) = lstrip t := by
        simp [lstrip, List.dropWhile_cons, hc]
      rw [this]
      exact ih ht
    · have : lstrip (c :: t) = c :: t := by
        simp [lstrip, List.dropWhile_cons, hc]
      rw [this]
      exact hm

theorem strip_idem (l : List Char) : strip (strip l) = strip l := by
  unfold strip
  rw [rstrip_fixed_of_lstrip (rstrip l) (rstrip_idem l), lstrip_idem]

theorem mem_rstrip {a : Char} {l : List Char} (h : a ∈ rstrip l) : a ∈ l := by
  unfold rstrip at h
  exact List.mem_reverse.mp
    ((List.dropWhile_sublist _).subset (List.mem_reverse.mp h))

theorem mem_strip {a : Char} {l : List Char} (h : a ∈ strip l) : a ∈ l := by
  unfold strip lstrip at h
  exact mem_rstrip ((List.dropWhile_sublist _).subset h)

/-! ### Facts about line splitting and joining -/

theorem splitNl_ne_nil (x : List Char) : splitNl x ≠ [] := by
  cases x with
  | nil => simp [splitNl]
  | cons c rest =>
    simp only [splitNl]
    cases splitNl rest with
    | nil => simp
    | cons h t => by_cases hc : c = '\n' <;> simp [hc]

theorem splitNl_no_newline : ∀ (x : List Char), ∀ part ∈ splitNl x, '\n' ∉ part := by
  intro x
  induction x with
  | nil =>
    intro part hp
    simp only [splitNl, List.mem_singleton] at hp
    simp [hp]
  | cons c rest ih =>
    intro part hp
    cases hsp : splitNl rest with
    | nil => exact absurd hsp (splitNl_ne_nil rest)
    | cons h t =>
      simp only [splitNl, hsp] at hp
      by_cases hc : c = '\n'
      · rw [if_pos hc] at hp
        rcases List.mem_cons.mp hp with rfl | hp
        · simp
        · exact ih part (hsp ▸ hp)
      · rw [if_neg hc] at hp
        rcases List.mem_cons.mp hp with rfl | hp
        · intro hmem
          rcases List.mem_cons.mp hmem with hh | hh
          · exact hc hh.symm
          · exact ih h (hsp ▸ List.mem_cons_self h t) hh
        · exact ih part (hsp ▸ List.mem_cons_of_mem h hp)

theorem rstripLines_mem {a : Char} : ∀ (l : List Char), a ∈ rstripLines l → a ∈ l := by
  intro l
  induction l with
  | nil => simp [rstripLines]
  | cons c rest ih =>
    intro h
    simp only [rstripLines] at h
    by_cases hc : c = '\n'
    · rw [if_pos hc] at h
      rcases List.mem_cons.mp h with rfl | h
      · exact hc ▸ List.mem_cons_self c rest
      · exact List.mem_cons_of_mem c (ih h)
    · rw [if_neg hc] at h
      by_cases h2 : pySpace c && ((rstripLines rest).headD '\n' = '\n')
      · rw [if_pos h2] at h
        exact List.mem_cons_of_mem c (ih h)
      · rw [if_neg h2] at h
        rcases List.mem_cons.mp h with rfl | h
        · exact List.mem_cons_self a rest
        · exact List.mem_cons_of_mem c (ih h)

/-- One line-step of the bridge: pushing one more character `c` (not a
newline) onto the current line `h`, where `X` is the already-joined
remainder (empty, or starting with the newline separating the lines). -/
theorem line_step (c : Char) (h X : List Char) (hnl : '\n' ∉ h)
    (hX : X = [] ∨ X.head? = some '\n') :
    rstrip (c :: h) ++ X =
      if pySpace c && ((rstrip h ++ X).headD '\n' = '\n') then rstrip h ++ X
      else c :: (rstrip h ++ X) := by
  rw [rstrip_cons]
  by_cases h1 : pySpace c ∧ rstrip h = []
  · rw [if_pos h1, h1.2]
    have hcond : (pySpace c && ((([] : List Char) ++ X).headD '\n' = '\n')) = true := by
      rcases hX with rfl | hX
      · simp [h1.1]
      · simp [h1.1, List.headD_eq_head?_getD, hX]
    rw [if_pos hcond]
  · rw [if_neg h1]
    by_cases hpc : pySpace c
    · have hrne : rstrip h ≠ [] := fun hh => h1 ⟨hpc, hh⟩
      cases hr : rstrip h with
      | nil => exact absurd hr hrne
      | cons d ds =>
        have hd : d ∈ h := mem_rstrip (hr ▸ List.mem_cons_self d ds)
        have hdn : d ≠ '\n' := fun hdnn => hnl (hdnn ▸ hd)
        rw [if_neg (by simp [hdn])]
        simp
    · rw [if_neg (by simp [hpc])]
      simp

/-- Bridge: the `split` / per-line `rstrip` / `join` composition of
`_normalize_text` equals the single-pass `rstripLines`. -/
theorem bridge_rstrip_lines : ∀ (x : List Char),
    joinNl ((splitNl x).map rstrip) = rstripLines x := by
  intro x
  induction x with
  | nil => simp [splitNl, joinNl, rstripLines, rstrip]
  | cons c rest ih =>
    cases hsp : splitNl rest with
    | nil => exact absurd hsp (splitNl_ne_nil rest)
    | cons h t =>
      have ih' : joinNl (rstrip h :: t.map rstrip) = rstripLines rest := by
        rw [← ih, hsp, List.map_cons]
      have hnl : '\n' ∉ h := splitNl_no_newline rest h (hsp ▸ List.mem_cons_self h t)
      simp only [splitNl, hsp]
      by_cases hc : c = '\n'
      · subst hc
        rw [if_pos rfl]
        have hR : rstripLines ('\n' :: rest) = '\n' :: rstripLines rest := by
          simp [rstripLines]
        rw [hR, ← ih']
        simp only [List.map_cons, joinNl]
        simp [rstrip]
      · rw [if_neg hc]
        have hR : rstripLines (c :: rest) =
            if pySpace c && ((rstripLines rest).headD '\n' = '\n') then rstripLines rest
            else c :: rstripLines rest := by
          simp only [rstripLines, if_neg hc]
        rw [hR, ← ih']
        cases t with
        | nil =>
          simp only [List.map_cons, List.map_nil, joinNl]
          have := line_step c h [] hnl (Or.inl rfl)
          simpa using this
        | cons t0 ts =>
          simp only [List.map_cons, joinNl]
          have := line_step c h ('\n' :: joinNl (rstrip t0 :: ts.map rstrip)) hnl
            (Or.inr rfl)
          simpa using this

/-! ### Single-pass right-trim: structural facts -/

theorem rstripLines_cons_nl (xs : List Char) :
    rstripLines ('\n' :: xs) = '\n' :: rstripLines xs := by
  simp [rstripLines]

theorem rstripLines_length_le (l : List Char) : (rstripLines l).length ≤ l.length := by
  induction l with
  | nil => simp [rstripLines]
  | cons c rest ih =>
    simp only [rstripLines]
    by_cases hc : c = '\n'
    · rw [if_pos hc]; simpa using ih
    · rw [if_neg hc]
      by_cases h2 : pySpace c && ((rstripLines rest).headD '\n' = '\n')
      · rw [if_pos h2]
        simp only [List.length_cons]
        omega
      · rw [if_neg h2]; simpa using ih

theorem rstripLines_cons_elim {c : Char} {t : List Char}
    (hv : rstripLines (c :: t) = c :: t) :
    rstripLines t = t ∧
      (c = '\n' ∨ pySpace c = false ∨ t.headD '\n' ≠ '\n') := by
  by_cases hc : c = '\n'
  · simp only [rstripLines, if_pos hc] at hv
    exact ⟨by simpa [hc] using (List.cons_eq_cons.mp hv).2, Or.inl hc⟩
  · simp only [rstripLines, if_neg hc] at hv
    by_cases h2 : pySpace c && ((rstripLines t).headD '\n' = '\n')
    · rw [if_pos h2] at hv
      have := rstripLines_length_le t
      rw [hv] at this
      simp at this
    · rw [if_neg h2] at hv
      have ht : rstripLines t = t := (List.cons_eq_cons.mp hv).2
      refine ⟨ht, ?_⟩
      rw [ht] at h2
      by_cases hpc : pySpace c
      · refine Or.inr (Or.inr ?_)
        intro hhd
        have hhd' : t.head?.getD '\n' = '\n' := by simpa using hhd
        exact h2 (by simp [hpc, hhd'])
      · exact Or.inr (Or.inl (by simpa using hpc))

theorem rstripLines_idem (l : List Char) : rstripLines (rstripLines l) = rstripLines l := by
  induction l with
  | nil => simp [rstripLines]
  | cons c rest ih =>
    by_cases hc : c = '\n'
    · subst hc
      simp only [rstripLines_cons_nl, ih]
    · simp only [rstripLines, if_neg hc]
      by_cases h2 : pySpace c && ((rstripLines rest).headD '\n' = '\n')
      · rw [if_pos h2]
        exact ih
      · rw [if_neg h2]
        simp only [rstripLines, if_neg hc, ih]
        rw [if_neg h2]

theorem rstripLines_lstrip (v : List Char) (hv : rstripLines v = v) :
    rstripLines (lstrip v) = lstrip v := by
  induction v with
  | nil => simp [lstrip, rstripLines]
  | cons c t ih =>
    have ht : rstripLines t = t := (rstripLines_cons_elim hv).1
    by_cases hc : pySpace c
    · have : lstrip (c :: t) = lstrip t := by
        simp [lstrip, List.dropWhile_cons, hc]
      rw [this]
      exact ih ht
    · have : lstrip (c :: t) = c :: t := by
        simp [lstrip, List.dropWhile_cons, hc]
      rw [this]
      exact hv

theorem rstripLines_rstrip (v : List Char) (hv : rstripLines v = v) :
    rstripLines (rstrip v) = rstrip v := by
  induction v with
  | nil => simp [rstrip, rstripLines]
  | cons c t ih =>
    obtain ⟨ht, hcnd⟩ := rstripLines_cons_elim hv
    have iht := ih ht
    rw [rstrip_cons]
    by_cases h1 : pySpace c ∧ rstrip t = []
    · rw [if_pos h1]
      simp [rstripLines]
    · rw [if_neg h1]
      by_cases hc : c = '\n'
      · subst hc
        rw [rstripLines_cons_nl, iht]
      · simp only [rstripLines, if_neg hc]
        have hcondf : (pySpace c && ((rstripLines (rstrip t)).headD '\n' = '\n')) = false := by
          rw [iht]
          by_cases hpc : pySpace c
          · have hrne : rstrip t ≠ [] := fun hh => h1 ⟨hpc, hh⟩
            rcases hcnd with hcnd | hcnd | hcnd
            · exact absurd hcnd hc
            · rw [hcnd]; simp
            · have hh := rstrip_head? t hrne
              cases t with
              | nil => simp at hcnd
              | cons d ds =>
                have hd : d ≠ '\n' := by simpa using hcnd
                cases hr : rstrip (d :: ds) with
                | nil => exact absurd hr hrne
                | cons e es =>
                  rw [hr] at hh
                  simp only [List.head?_cons, Option.some.injEq] at hh
                  simp [hr, hh, hd]
          · simp [hpc]
        rw [if_neg (by rw [hcondf]; exact Bool.false_ne_true), iht]

/-- The tail of `_normalize_text` after the newline collapse -- per-line
right trim followed by the whole-string trim -- is idempotent. -/
theorem strip_rstripLines_idem (u : List Char) :
    strip (rstripLines (strip (rstripLines u))) = strip (rstripLines u) := by
  have h1 : rstripLines (rstripLines u) = rstripLines u := rstripLines_idem u
  have h2 : rstripLines (strip (rstripLines u)) = strip (rstripLines u) := by
    unfold strip
    exact rstripLines_lstrip _ (rstripLines_rstrip (rstripLines u) h1)
  rw [h2, strip_idem]

/-! ### The CR replacement and the newline collapse -/

theorem replCR_no_cr_aux : ∀ (n : Nat) (l : List Char), l.length ≤ n → '\r' ∉ replCR l := by
  intro n
  induction n with
  | zero =>
    intro l hl
    have : l = [] := by cases l <;> simp_all
    simp [this, replCR]
  | succ n ih =>
    intro l hl
    match l with
    | [] => simp [replCR]
    | [c] =>
      simp only [replCR]
      by_cases hc : c = '\r'
      · simp [hc]
      · simp only [if_neg hc, List.mem_singleton]
        exact Ne.symm hc
    | c :: d :: rest =>
      simp only [replCR]
      simp only [List.length_cons] at hl
      by_cases hc : c = '\r'
      · rw [if_pos hc]
        by_cases hd : d = '\n'
        · rw [if_pos hd]
          intro hmem
          rcases List.mem_cons.mp hmem with h | h
          · exact absurd h.symm (by decide)
          · exact ih rest (by omega) h
        · rw [if_neg hd]
          intro hmem
          rcases List.mem_cons.mp hmem with h | h
          · exact absurd h.symm (by decide)
          · exact ih (d :: rest) (by simp; omega) h
      · rw [if_neg hc]
        intro hmem
        rcases List.mem_cons.mp hmem with h | h
        · exact hc h.symm
        · exact ih (d :: rest) (by simp; omega) h

theorem replCR_no_cr (l : List Char) : '\r' ∉ replCR l :=
  replCR_no_cr_aux l.length l le_rfl

theorem replCR_fixed_aux : ∀ (n : Nat) (l : List Char), l.length ≤ n → '\r' ∉ l →
    replCR l = l := by
  intro n
  induction n with
  | zero =>
    intro l hl _
    have : l = [] := by cases l <;> simp_all
    simp [this, replCR]
  | succ n ih =>
    intro l hl hncr
    match l with
    | [] => simp [replCR]
    | [c] =>
      have hc : c ≠ '\r' := fun h => hncr (by simp [h])
      simp [replCR, hc]
    | c :: d :: rest =>
      have hc : c ≠ '\r' := fun h => hncr (by simp [h])
      simp only [replCR, if_neg hc]
      simp only [List.length_cons] at hl
      rw [ih (d :: rest) (by simp; omega)
        (fun h => hncr (List.mem_cons_of_mem c h))]

theorem replCR_fixed (l : List Char) (h : '\r' ∉ l) : replCR l = l :=
  replCR_fixed_aux l.length l le_rfl h

theorem msubGo_mem {a : Char} : ∀ (l : List Char) (k : Nat), a ∈ msubGo k l → a ∈ l ∨ a = '\n' := by
  intro l
  induction l with
  | nil =>
    intro k h
    right
    exact List.eq_of_mem_replicate (by simpa [msubGo, msubFlush] using h)
  | cons c rest ih =>
    intro k h
    simp only [msubGo] at h
    by_cases hc : c = '\n'
    · rw [if_pos hc] at h
      rcases ih (k + 1) h with h | h
      · exact Or.inl (List.mem_cons_of_mem _ h)
      · exact Or.inr h
    · rw [if_neg hc] at h
      rcases List.mem_append.mp h with h | h
      · exact Or.inr (List.eq_of_mem_replicate (by simpa [msubFlush] using h))
      · rcases List.mem_cons.mp h with rfl | h
        · exact Or.inl (List.mem_cons_self _ _)
        · rcases ih 0 h with h | h
          · exact Or.inl (List.mem_cons_of_mem _ h)
          · exact Or.inr h

/-- The value of `normalize_text` on a non-empty input, with the split/rstrip/join
stage replaced by the single-pass `rstripLines` via the bridge. -/
theorem normalize_text_eq (s : List Char) (hs : s ≠ []) :
    normalize_text s = strip (rstripLines (msub (replCR (brSub s)))) := by
  rw [normalize_text, if_neg hs, bridge_rstrip_lines]

/-- The output of `_normalize_text` never contains a carriage return. -/
theorem normalize_no_cr (s : List Char) : '\r' ∉ normalize_text s := by
  by_cases hs : s = []
  · simp [hs, normalize_text]
  · rw [normalize_text_eq s hs]
    intro hmem
    have h1 := rstripLines_mem _ (mem_strip hmem)
    rcases msubGo_mem _ 0 h1 with h2 | h2
    · exact replCR_no_cr _ h2
    · exact absurd h2 (by decide)

/-! ### Claims C4 and C5: normalisation properties -/

/-- C4: the claim "`_normalize_text` is idempotent" is false on the code.
At the input "a\n \n \nb" the first pass right-trims the two
whitespace-only lines, creating a new run of three newlines that only a
second pass collapses: the first application yields "a\n\n\nb", the
second "a\n\nb". -/
theorem C4_counterexample :
    normalize_text (normalize_text ("a\n \n \nb".toList)) ≠
      normalize_text ("a\n \n \nb".toList) := by
  decide

/-- C4 (amended): `_normalize_text` is idempotent at every string whose
normalised output is a fixed point of the `<br>` substitution and of the
blank-line collapse.  (In general a second application can differ: the
per-line right trim can create new runs of three-or-more newlines, and
the `<br>` substitution can create new `<br>` matches, which only a
second pass rewrites; see `C4_counterexample`.) -/
theorem C4_normalize_idempotent_amended (s : List Char)
    (hbr : brSub (normalize_text s) = normalize_text s)
    (hms : msub (normalize_text s) = normalize_text s) :
    normalize_text (normalize_text s) = normalize_text s := by
  by_cases hs : s = []
  · simp [hs, normalize_text]
  · by_cases ht : normalize_text s = []
    · rw [ht]
      simp [normalize_text]
    · rw [normalize_text_eq _ ht, hbr, replCR_fixed _ (normalize_no_cr s), hms,
        normalize_text_eq s hs]
      exact strip_rstripLines_idem _

/-- Witness for `C4_normalize_idempotent_amended` at the concrete input
"hello". -/
theorem C4_witness :
    brSub (normalize_text ("hello".toList)) = normalize_text ("hello".toList) ∧
    msub (normalize_text ("hello".toList)) = normalize_text ("hello".toList) ∧
    normalize_text (normalize_text ("hello".toList)) = normalize_text ("hello".toList) :=
  ⟨by decide, by decide,
    C4_normalize_idempotent_amended ("hello".toList) (by decide) (by decide)⟩

/-- C5: the claim fails as stated.  The input of exactly three newlines
contains a run of N ≥ 3 consecutive newlines, but `_normalize_text`
returns the empty string: the collapsed pair is removed again by the
final trim, so the output does not contain two consecutive newlines in
place of the run -- it contains no newline at all. -/
theorem C5_counterexample :
    normalize_text (List.replicate 3 '\n') = [] ∧
      '\n' ∉ normalize_text (List.replicate 3 '\n') :=
  ⟨by decide, by decide⟩

theorem msubGo_cons_nl (k : Nat) (xs : List Char) :
    msubGo k ('\n' :: xs) = msubGo (k + 1) xs := by
  simp [msubGo]

theorem msubGo_cons_ne {c : Char} (hc : c ≠ '\n') (k : Nat) (xs : List Char) :
    msubGo k (c :: xs) = msubFlush k ++ c :: msubGo 0 xs := by
  simp [msubGo, hc]

theorem msubGo_replicate (b : List Char) : ∀ (n k : Nat),
    msubGo k (List.replicate n '\n' ++ b) = msubGo (k + n) b := by
  intro n
  induction n with
  | zero => intro k; simp
  | succ n ih =>
    intro k
    rw [List.replicate_succ, List.cons_append, msubGo_cons_nl, ih]
    congr 1
    omega

theorem msubGo_append_of_getLast : ∀ (a : List Char), a.getLast? ≠ some '\n' →
    a ≠ [] → ∀ (k : Nat) (X : List Char),
    msubGo k (a ++ X) = msubGo k a ++ msubGo 0 X := by
  intro a
  induction a with
  | nil => intro _ ha; exact absurd rfl ha
  | cons c a' ih =>
    intro hlast _ k X
    cases a' with
    | nil =>
      have hc : c ≠ '\n' := by simpa using hlast
      rw [List.singleton_append, msubGo_cons_ne hc, msubGo_cons_ne hc]
      simp [msubGo, msubFlush]
    | cons d a'' =>
      have hlast' : (d :: a'').getLast? ≠ some '\n' := by
        simpa [List.getLast?_cons_cons] using hlast
      have ih' := ih hlast' (by simp)
      by_cases hc : c = '\n'
      · subst hc
        rw [List.cons_append, msubGo_cons_nl, msubGo_cons_nl]
        exact ih' (k + 1) X
      · rw [List.cons_append, msubGo_cons_ne hc, msubGo_cons_ne hc, ih' 0 X,
          List.append_assoc]
        simp

theorem msubGo_big_flush (k : Nat) (hk : 3 ≤ k) (bb : List Char)
    (hbb : bb.head? ≠ some '\n') :
    msubGo k bb = '\n' :: '\n' :: msubGo 0 bb := by
  have hmin : min k 2 = 2 := by omega
  cases bb with
  | nil => simp [msubGo, msubFlush, hmin]
  | cons d ds =>
    have hd : d ≠ '\n' := by simpa using hbb
    simp only [msubGo, if_neg hd]
    simp [msubFlush, hmin]

/-- C5 (amended): the blank-line-collapse stage of `_normalize_text`
(the `re.sub(r"\n{3,}", "\n\n", s)` step, embedded as `msub`) replaces a
run of N ≥ 3 consecutive newlines, not adjacent to further newlines, by
exactly two newlines.  The subsequent per-line right trim and final trim
of `_normalize_text` can remove or merge those newlines at line and
string boundaries, which is what refutes the claim at the level of the
whole normaliser (see `C5_counterexample`). -/
theorem C5_collapse_amended (n : Nat) (a b : List Char) (hn : 3 ≤ n)
    (ha : a.getLast? ≠ some '\n') (hb : b.head? ≠ some '\n') :
    msub (a ++ List.replicate n '\n' ++ b) = msub a ++ '\n' :: '\n' :: msub b := by
  by_cases hane : a = []
  · subst hane
    simp only [List.nil_append, msub]
    rw [msubGo_replicate, Nat.zero_add, msubGo_big_flush n hn b hb]
    simp [msubGo, msubFlush]
  · rw [msub, List.append_assoc,
      msubGo_append_of_getLast a ha hane 0 (List.replicate n '\n' ++ b),
      msubGo_replicate, Nat.zero_add, msubGo_big_flush n hn b hb]
    rfl

/-- Witness for `C5_collapse_amended` at n = 3, a = "x", b = "y". -/
theorem C5_witness :
    3 ≤ 3 ∧ ("x".toList.getLast? ≠ some '\n') ∧ ("y".toList.head? ≠ some '\n') ∧
    msub ("x".toList ++ List.replicate 3 '\n' ++ "y".toList) =
      msub ("x".toList) ++ '\n' :: '\n' :: msub ("y".toList) :=
  ⟨by decide, by decide, by decide,
    C5_collapse_amended 3 ("x".toList) ("y".toList) (by decide) (by decide) (by decide)⟩

/-! ### Claims C6 and C9: source summarisation -/

theorem sourceKey_snd {u : List Char} {p : List Char × List Char}
    (h : sourceKey u = some p) : p.2 = u := by
  unfold sourceKey at h
  cases hp : urlparseNetloc u with
  | error e => rw [hp] at h; cases h
  | ok netloc =>
    rw [hp] at h
    simp only at h
    by_cases hd : stripWww (netloc.map Char.toLower) = []
    · rw [if_pos hd] at h; cases h
    · rw [if_neg hd] at h
      cases h
      rfl

theorem dedupSkip_subset {p : List Char × List Char} :
    ∀ (l seen : List (List Char × List Char)), p ∈ dedupSkip seen l → p ∈ l := by
  intro l
  induction l with
  | nil => intro seen h; simp [dedupSkip] at h
  | cons q rest ih =>
    intro seen h
    simp only [dedupSkip] at h
    by_cases hq : q ∈ seen
    · rw [if_pos hq] at h
      exact List.mem_cons_of_mem q (ih seen h)
    · rw [if_neg hq] at h
      rcases List.mem_cons.mp h with rfl | h
      · exact List.mem_cons_self p rest
      · exact List.mem_cons_of_mem q (ih (seen ++ [q]) h)

/-- The `_summarize_sources` loop, related to first-occurrence dedup plus
`take`: `picked` collects the pairs already emitted. -/
theorem sumGo_eq_dedup (limit : Nat) :
    ∀ (urls : List (List Char)) (picked : List (List Char × List Char)),
    picked.length < limit →
    sumGo limit urls picked =
      (dedupSkip picked (urls.filterMap sourceKey)).take (limit - picked.length) := by
  intro urls
  induction urls with
  | nil => intro picked _; simp [sumGo, dedupSkip]
  | cons url rest ih =>
    intro picked hlt
    cases hp : urlparseNetloc url with
    | error e =>
      have hsk : sourceKey url = none := by simp [sourceKey, hp]
      simp only [sumGo, hp, List.filterMap_cons, hsk]
      exact ih picked hlt
    | ok netloc =>
      by_cases hdom : stripWww (netloc.map Char.toLower) = []
      · have hsk : sourceKey url = none := by simp [sourceKey, hp, hdom]
        simp only [sumGo, hp, List.filterMap_cons, hsk]
        rw [if_neg (fun h => h.1 hdom)]
        exact ih picked hlt
      · have hsk : sourceKey url = some (stripWww (netloc.map Char.toLower), url) := by
          simp [sourceKey, hp, hdom]
        simp only [sumGo, hp, List.filterMap_cons, hsk]
        by_cases hmem : (stripWww (netloc.map Char.toLower), url) ∈ picked
        · rw [if_neg (fun h => h.2 hmem)]
          simp only [dedupSkip, if_pos hmem]
          exact ih picked hlt
        · rw [if_pos ⟨hdom, hmem⟩]
          simp only [dedupSkip, if_neg hmem]
          obtain ⟨m, hm⟩ : ∃ m, limit - picked.length = m + 1 :=
            ⟨limit - picked.length - 1, by omega⟩
          rw [hm, List.take_succ_cons]
          by_cases hbreak : picked.length + 1 ≥ limit
          · rw [if_pos hbreak]
            have hm0 : m = 0 := by omega
            rw [hm0]
            simp
          · rw [if_neg hbreak]
            rw [ih (picked ++ [(stripWww (netloc.map Char.toLower), url)])
              (by simp; omega)]
            have : limit - (picked ++
                [(stripWww (netloc.map Char.toLower), url)]).length = m := by
              simp
              omega
            rw [this]

/-- C6: the claim quantifies over every limit, and fails at limit = 0:
the loop appends before testing the cap, so even with a limit of 0 one
pair is returned ("the result contains exactly limit entries as soon as
limit unique pairs exist" demands 0 entries here, vacuously). -/
theorem C6_counterexample :
    (summarize_sources ["http://a.com/1".toList] 0).length = 1 ∧ (1 : Nat) ≠ 0 :=
  ⟨by decide, by decide⟩

/-- C6 (amended): for every URL list and every limit ≥ 1 (the limit-0
edge is excluded by `C6_counterexample`; the only call site uses 5),
`_summarize_sources` equals first-occurrence deduplication of the
per-URL keys (host lower-cased, leading "www." stripped, skipping URLs
whose parse raises or whose host is empty) truncated to `limit`; hence
it has exactly `limit` entries as soon as `limit` unique pairs exist,
and every emitted pair is the key of one of the input URLs. -/
theorem C6_summarize_amended (urls : List (List Char)) (limit : Nat) (hl : 1 ≤ limit) :
    summarize_sources urls limit = (firstDedup (urls.filterMap sourceKey)).take limit ∧
    (limit ≤ (firstDedup (urls.filterMap sourceKey)).length →
      (summarize_sources urls limit).length = limit) ∧
    (∀ p ∈ summarize_sources urls limit, sourceKey p.2 = some p ∧ p.2 ∈ urls) := by
  have hmain : summarize_sources urls limit =
      (firstDedup (urls.filterMap sourceKey)).take limit := by
    rw [summarize_sources, sumGo_eq_dedup limit urls [] (by simp only [List.length_nil]; omega)]
    simp [firstDedup]
  refine ⟨hmain, ?_, ?_⟩
  · intro hlen
    rw [hmain, List.length_take]
    omega
  · intro p hp
    rw [hmain] at hp
    have h1 : p ∈ firstDedup (urls.filterMap sourceKey) := List.mem_of_mem_take hp
    have h2 : p ∈ urls.filterMap sourceKey := dedupSkip_subset _ [] h1
    obtain ⟨u, hu, hku⟩ := List.mem_filterMap.mp h2
    have hsnd := sourceKey_snd hku
    constructor
    · rw [hsnd]; exact hku
    · rw [hsnd]; exact hu

/-- Witness for `C6_summarize_amended` at a concrete URL list and
limit 5 (covering the spec's domain-normalisation example). -/
theorem C6_witness :
    summarize_sources
        ["https://www.Example.com/x".toList, "https://example.com/x".toList,
         "https://www.Example.com/x".toList, "http://a.com/1".toList] 5 =
      (firstDedup
        ((["https://www.Example.com/x".toList, "https://example.com/x".toList,
           "https://www.Example.com/x".toList, "http://a.com/1".toList]).filterMap
          sourceKey)).take 5 :=
  (C6_summarize_amended _ 5 (by omega)).1

theorem sumGo_filter (limit : Nat) :
    ∀ (urls : List (List Char)) (picked : List (List Char × List Char)),
    sumGo limit urls picked =
      sumGo limit (urls.filter (fun u => (sourceKey u).isSome)) picked := by
  intro urls
  induction urls with
  | nil => intro picked; simp [sumGo]
  | cons url rest ih =>
    intro picked
    by_cases hk : (sourceKey url).isSome = true
    · rw [List.filter_cons_of_pos (by simpa using hk)]
      cases hp : urlparseNetloc url with
      | error e =>
        simp only [sumGo, hp]
        exact ih picked
      | ok netloc =>
        simp only [sumGo, hp]
        by_cases hcond : stripWww (netloc.map Char.toLower) ≠ [] ∧
            (stripWww (netloc.map Char.toLower), url) ∉ picked
        · rw [if_pos hcond, if_pos hcond]
          by_cases hbr : picked.length + 1 ≥ limit
          · rw [if_pos hbr, if_pos hbr]
          · rw [if_neg hbr, if_neg hbr, ih _]
        · rw [if_neg hcond, if_neg hcond]
          exact ih picked
    · rw [List.filter_cons_of_neg (by simpa using hk)]
      cases hp : urlparseNetloc url with
      | error e =>
        simp only [sumGo, hp]
        exact ih picked
      | ok netloc =>
        simp only [sumGo, hp]
        have hdom : stripWww (netloc.map Char.toLower) = [] := by
          by_contra hd
          exact hk (by simp [sourceKey, hp, hd])
        rw [if_neg (fun h => h.1 hdom)]
        exact ih picked

/-- C9: URLs whose parsing raises or whose host normalises to empty are
transparent to `_summarize_sources`: the function never raises (it is
total by construction, the per-URL `try` is the `Except` match), and the
result is exactly that of the well-formed URLs alone, so each remaining
well-formed URL still contributes under the dedup and limit rules. -/
theorem C9_malformed_urls_skipped (urls : List (List Char)) (limit : Nat) :
    summarize_sources urls limit =
      summarize_sources (urls.filter (fun u => (sourceKey u).isSome)) limit :=
  sumGo_filter limit urls []

/-! ### The reverse transcript scan -/

theorem finalAiScan_skip (m : Msg) (rest : List Msg)
    (hfail : m.role = Role.ai → m.toolCalls = false →
      normalize_text m.content = [] ∨
        looks_like_toolcall_text (normalize_text m.content) = true) :
    finalAiScan (m :: rest) = finalAiScan rest := by
  cases hr : m.role with
  | ai =>
    cases htc : m.toolCalls with
    | true => simp only [finalAiScan, hr, htc]
    | false =>
      simp only [finalAiScan, hr, htc]
      rcases hfail hr htc with h | h
      · rw [if_neg (by simp [h])]
      · rw [if_neg (by simp [h])]
  | system => simp only [finalAiScan, hr]
  | human => simp only [finalAiScan, hr]
  | tool => simp only [finalAiScan, hr]

theorem finalAiScan_append (l rest : List Msg)
    (hfail : ∀ m ∈ l, m.role = Role.ai → m.toolCalls = false →
      normalize_text m.content = [] ∨
        looks_like_toolcall_text (normalize_text m.content) = true) :
    finalAiScan (l ++ rest) = finalAiScan rest := by
  induction l with
  | nil => simp
  | cons m l' ih =>
    rw [List.cons_append,
      finalAiScan_skip m (l' ++ rest) (hfail m (List.mem_cons_self m l'))]
    exact ih (fun m' hm' => hfail m' (List.mem_cons_of_mem m hm'))

theorem finalAiScan_hit (m : Msg) (rest : List Msg)
    (hrole : m.role = Role.ai) (htc : m.toolCalls = false)
    (hne : normalize_text m.content ≠ [])
    (hclean : looks_like_toolcall_text (normalize_text m.content) = false) :
    finalAiScan (m :: rest) = normalize_text m.content := by
  simp only [finalAiScan, hrole, htc]
  rw [if_pos (by simp [hne, hclean])]

theorem finalAiScan_spec : ∀ (l : List Msg), finalAiScan l ≠ [] →
    (∃ m ∈ l, m.role = Role.ai ∧ m.toolCalls = false ∧
      finalAiScan l = normalize_text m.content) ∧
    looks_like_toolcall_text (finalAiScan l) = false := by
  intro l
  induction l with
  | nil => intro h; exact absurd rfl h
  | cons m rest ih =>
    intro h
    by_cases hq : m.role = Role.ai ∧ m.toolCalls = false ∧
        normalize_text m.content ≠ [] ∧
        looks_like_toolcall_text (normalize_text m.content) = false
    · obtain ⟨h1, h2, h3, h4⟩ := hq
      have he := finalAiScan_hit m rest h1 h2 h3 h4
      exact ⟨⟨m, List.mem_cons_self m rest, h1, h2, he⟩, he ▸ h4⟩
    · have hskip : finalAiScan (m :: rest) = finalAiScan rest := by
        apply finalAiScan_skip
        intro h1 h2
        by_cases h3 : normalize_text m.content = []
        · exact Or.inl h3
        · refine Or.inr ?_
          by_cases h4 : looks_like_toolcall_text (normalize_text m.content) = true
          · exact h4
          · exact absurd ⟨h1, h2, h3, by simpa using h4⟩ hq
      rw [hskip] at h ⊢
      obtain ⟨⟨m', hm', h1, h2, h3⟩, h4⟩ := ih h
      exact ⟨⟨m', List.mem_cons_of_mem m hm', h1, h2, h3⟩, h4⟩

/-! ### Unfolding the entry point past the successful pre-synthesis stages -/

theorem run_reconcile (env : Env) (llm_id : List Char) (messages : List (List Char))
    (allow_search : Bool) (system_prompt : List Char) (msgs : List Msg)
    (h1 : env.chatGroq = Except.ok ())
    (h2 : create_agent_result env = Except.ok ())
    (h3 : env.agentInvoke = Except.ok msgs) :
    get_response_from_ai_agents env llm_id messages allow_search system_prompt =
      (if !used_tools_of msgs && !(final_ai_text_of msgs).isEmpty then
        Except.ok ⟨final_ai_text_of msgs, false⟩
      else
        match env.llmInvoke (synth_request_of env msgs messages) with
        | Except.error _ =>
          Except.ok ⟨if !(final_ai_text_of msgs).isEmpty &&
              !looks_like_toolcall_text (final_ai_text_of msgs)
            then final_ai_text_of msgs else apology_text, true⟩
        | Except.ok content =>
          match env.fixingParse content with
          | Except.error _ =>
            Except.ok ⟨if !(final_ai_text_of msgs).isEmpty &&
                !looks_like_toolcall_text (final_ai_text_of msgs)
              then final_ai_text_of msgs else apology_text, true⟩
          | Except.ok data =>
            Except.ok ⟨if (strip (compose_synth data)).isEmpty then final_ai_text_of msgs
              else strip (compose_synth data), true⟩) := by
  simp only [get_response_from_ai_agents, h1, h2, h3]

/-! ### Claims C1, C2, C3, C7, C8, C10 -/

/-- C1: the claim is false as stated.  `ChatGroq(model=llm_id, ...)` at
line 124 is outside every `try`: when the model-client construction
raises, the exception propagates past the function boundary (the same
holds for `agent.invoke` at line 143).  Here the construction failure
escapes as-is. -/
theorem C1_counterexample :
    get_response_from_ai_agents cexEnvGroqFail [] [] false [] =
      Except.error (PyErr.exn 0) := rfl

/-- C1 (amended): whenever the model-client construction, the agent
creation and the reasoning-loop invocation succeed, the function returns
a string and never raises: every failure of the HTML clean-up, the
synthesis model call or the structured parse is caught. -/
theorem C1_no_raise_amended (env : Env) (llm_id : List Char)
    (messages : List (List Char)) (allow_search : Bool) (system_prompt : List Char)
    (msgs : List Msg)
    (h1 : env.chatGroq = Except.ok ())
    (h2 : create_agent_result env = Except.ok ())
    (h3 : env.agentInvoke = Except.ok msgs) :
    ∃ out, get_response_from_ai_agents env llm_id messages allow_search system_prompt =
      Except.ok out := by
  rw [run_reconcile env llm_id messages allow_search system_prompt msgs h1 h2 h3]
  by_cases hfast : (!used_tools_of msgs && !(final_ai_text_of msgs).isEmpty) = true
  · rw [if_pos hfast]
    exact ⟨_, rfl⟩
  · rw [if_neg hfast]
    split
    · exact ⟨_, rfl⟩
    · split
      · exact ⟨_, rfl⟩
      · exact ⟨_, rfl⟩

/-- Witness for `C1_no_raise_amended` at a concrete environment. -/
theorem C1_witness :
    ∃ out, get_response_from_ai_agents envAllOk [] [] false [] = Except.ok out :=
  C1_no_raise_amended envAllOk [] [] false [] [] rfl rfl rfl

/-- C2: when the transcript has no tool-role message and its most recent
qualifying ai-message `m` (no tool calls, normalised content non-empty
and not artifact-like, nothing qualifying after it) exists, the function
returns that normalised content with the synthesis call never reached. -/
theorem C2_fast_path (env : Env) (llm_id : List Char) (messages : List (List Char))
    (allow_search : Bool) (system_prompt : List Char)
    (pre post : List Msg) (m : Msg)
    (h1 : env.chatGroq = Except.ok ())
    (h2 : create_agent_result env = Except.ok ())
    (h3 : env.agentInvoke = Except.ok (pre ++ m :: post))
    (hTool : ∀ m' ∈ pre ++ m :: post, is_tool_message m' = false)
    (hRole : m.role = Role.ai) (hTC : m.toolCalls = false)
    (hNe : normalize_text m.content ≠ [])
    (hClean : looks_like_toolcall_text (normalize_text m.content) = false)
    (hPost : ∀ m' ∈ post, m'.role = Role.ai → m'.toolCalls = false →
      normalize_text m'.content = [] ∨
        looks_like_toolcall_text (normalize_text m'.content) = true) :
    get_response_from_ai_agents env llm_id messages allow_search system_prompt =
      Except.ok ⟨normalize_text m.content, false⟩ := by
  have hscan : final_ai_text_of (pre ++ m :: post) = normalize_text m.content := by
    rw [final_ai_text_of, List.reverse_append, List.reverse_cons, List.append_assoc]
    rw [finalAiScan_append post.reverse _
      (fun m' hm' => hPost m' (List.mem_reverse.mp hm'))]
    exact finalAiScan_hit m pre.reverse hRole hTC hNe hClean
  have hused : used_tools_of (pre ++ m :: post) = false := by
    simp only [used_tools_of, List.any_eq_false]
    intro m' hm'
    simp [hTool m' hm']
  rw [run_reconcile env llm_id messages allow_search system_prompt _ h1 h2 h3]
  rw [if_pos (by simp [hused, hscan, hNe]), hscan]

/-- Witness for `C2_fast_path`: the spec's own fast-path scenario. -/
theorem C2_witness :
    get_response_from_ai_agents envFastPath [] [] false [] =
      Except.ok ⟨normalize_text ("Paris is the capital of France.".toList), false⟩ :=
  C2_fast_path envFastPath [] [] false [] [] [] msgParis rfl rfl rfl
    (by decide) rfl rfl (by decide) (by decide) (by decide)

/-- C3: when the synthesis path is taken and the model call (or the
structured parse after it) raises, the function catches the exception and
returns `final_ai_text` if it is non-empty and not artifact-like, and
otherwise the fixed apology string. -/
theorem C3_synth_exception_fallback (env : Env) (llm_id : List Char)
    (messages : List (List Char)) (allow_search : Bool) (system_prompt : List Char)
    (msgs : List Msg)
    (h1 : env.chatGroq = Except.ok ())
    (h2 : create_agent_result env = Except.ok ())
    (h3 : env.agentInvoke = Except.ok msgs)
    (hpath : used_tools_of msgs = true ∨ final_ai_text_of msgs = [])
    (hfail : (∃ e, env.llmInvoke (synth_request_of env msgs messages) = Except.error e) ∨
      (∃ c e, env.llmInvoke (synth_request_of env msgs messages) = Except.ok c ∧
        env.fixingParse c = Except.error e)) :
    get_response_from_ai_agents env llm_id messages allow_search system_prompt =
      Except.ok ⟨if !(final_ai_text_of msgs).isEmpty &&
          !looks_like_toolcall_text (final_ai_text_of msgs)
        then final_ai_text_of msgs else apology_text, true⟩ := by
  rw [run_reconcile env llm_id messages allow_search system_prompt msgs h1 h2 h3]
  have hnofast : ¬((!used_tools_of msgs && !(final_ai_text_of msgs).isEmpty) = true) := by
    rcases hpath with h | h <;> simp [h]
  rw [if_neg hnofast]
  rcases hfail with ⟨e, he⟩ | ⟨c, e, hc, he⟩
  · rw [he]
  · rw [hc]
    simp only [he]

/-- Witness for `C3_synth_exception_fallback`: tool used, no final text,
failing model call; the apology string comes back. -/
theorem C3_witness :
    get_response_from_ai_agents envSynthFail [] [] false [] =
      Except.ok ⟨if !(final_ai_text_of [msgTool]).isEmpty &&
          !looks_like_toolcall_text (final_ai_text_of [msgTool])
        then final_ai_text_of [msgTool] else apology_text, true⟩ :=
  C3_synth_exception_fallback envSynthFail [] [] false [] [msgTool] rfl rfl rfl
    (Or.inl (by decide)) (Or.inl ⟨PyErr.exn 0, rfl⟩)

theorem header_append_ne_nil {hd : List Char} (hhd : hd ≠ []) (x : List Char) :
    hd ++ x ≠ [] := by
  cases hd with
  | nil => exact absurd rfl hhd
  | cons a t => simp

theorem bullets_section_ne_nil_iff (o : Option (List (List Char))) :
    bullets_section o ≠ [] ↔ o.getD [] ≠ [] := by
  cases o with
  | none => simp [bullets_section]
  | some bs =>
    cases bs with
    | nil => simp [bullets_section]
    | cons b bs' =>
      simp only [bullets_section, Option.getD_some]
      rw [if_pos (by simp)]
      constructor
      · intro _; simp
      · intro _
        exact header_append_ne_nil (by decide) _

theorem references_section_ne_nil_iff (o : Option (List (List Char))) :
    references_section o ≠ [] ↔ o.getD [] ≠ [] := by
  cases o with
  | none => simp [references_section]
  | some rs =>
    cases rs with
    | nil => simp [references_section]
    | cons r rs' =>
      simp only [references_section, Option.getD_some]
      rw [if_pos (by simp)]
      constructor
      · intro _; simp
      · intro _
        exact header_append_ne_nil (by decide) _

/-- C7: when the synthesis path is taken and the structured parse
succeeds, the returned string is the trimmed composition (or
`final_ai_text` when the trimmed composition is empty); the composition
starts with the normalised `answer`, and the "Key points" /
"References" sections are present exactly when the corresponding field
is a non-empty list. -/
theorem C7_compose_success (env : Env) (llm_id : List Char)
    (messages : List (List Char)) (allow_search : Bool) (system_prompt : List Char)
    (msgs : List Msg) (c : List Char) (data : SynthParsed)
    (h1 : env.chatGroq = Except.ok ())
    (h2 : create_agent_result env = Except.ok ())
    (h3 : env.agentInvoke = Except.ok msgs)
    (hpath : used_tools_of msgs = true ∨ final_ai_text_of msgs = [])
    (hllm : env.llmInvoke (synth_request_of env msgs messages) = Except.ok c)
    (hparse : env.fixingParse c = Except.ok data) :
    get_response_from_ai_agents env llm_id messages allow_search system_prompt =
      Except.ok ⟨if (strip (compose_synth data)).isEmpty then final_ai_text_of msgs
        else strip (compose_synth data), true⟩ ∧
    compose_synth data = normalize_text data.answer ++
      (bullets_section data.bullets ++ references_section data.references) ∧
    (bullets_section data.bullets ≠ [] ↔ data.bullets.getD [] ≠ []) ∧
    (references_section data.references ≠ [] ↔ data.references.getD [] ≠ []) := by
  refine ⟨?_, ?_, bullets_section_ne_nil_iff _, references_section_ne_nil_iff _⟩
  · rw [run_reconcile env llm_id messages allow_search system_prompt msgs h1 h2 h3]
    have hnofast : ¬((!used_tools_of msgs && !(final_ai_text_of msgs).isEmpty) = true) := by
      rcases hpath with h | h <;> simp [h]
    rw [if_neg hnofast, hllm]
    simp only [hparse]
  · rw [compose_synth, List.append_assoc]

/-- Witness for `C7_compose_success` at a concrete parse result with one
bullet and no references. -/
theorem C7_witness :
    (get_response_from_ai_agents envParseOk [] [] false [] =
      Except.ok ⟨if (strip (compose_synth dataSample)).isEmpty then final_ai_text_of [msgTool]
        else strip (compose_synth dataSample), true⟩ ∧
    compose_synth dataSample = normalize_text dataSample.answer ++
      (bullets_section dataSample.bullets ++ references_section dataSample.references) ∧
    (bullets_section dataSample.bullets ≠ [] ↔ dataSample.bullets.getD [] ≠ []) ∧
    (references_section dataSample.references ≠ [] ↔ dataSample.references.getD [] ≠ [])) :=
  C7_compose_success envParseOk [] [] false [] [msgTool] ("raw model reply".toList)
    dataSample rfl rfl rfl (Or.inl (by decide)) rfl rfl

/-- C8: `_make_tools` never raises (it is total, returning a plain list):
with search disallowed it returns the empty list, a failing Tavily
construction is caught and also yields the empty list, and in every case
the result is the empty list or a single tool, so the call proceeds in
no-tools mode rather than aborting. -/
theorem C8_make_tools (env : Env) (allow : Bool) :
    (allow = false → make_tools allow env = []) ∧
    (∀ e, env.tavilyInit = Except.error e → make_tools allow env = []) ∧
    (make_tools allow env = [] ∨ make_tools allow env = [()]) := by
  refine ⟨?_, ?_, ?_⟩
  · intro h
    simp [make_tools, h]
  · intro e he
    by_cases ha : allow
    · simp [make_tools, ha, he]
    · simp [make_tools, ha]
  · by_cases ha : allow
    · cases ht : env.tavilyInit with
      | ok t => right; simp [make_tools, ha, ht]
      | error e => left; simp [make_tools, ha, ht]
    · left
      simp [make_tools, ha]

/-- Witness for `C8_make_tools`: search disallowed yields no tools. -/
theorem C8_witness : make_tools false envAllOk = [] :=
  (C8_make_tools envAllOk false).1 rfl

/-- C10: whenever `final_ai_text` is non-empty it is the normalised
content of some ai-role message without tool calls and is not
artifact-like; consequently the artifact re-check of the synthesis
fallback (line 262) never excludes it: the fallback condition holds
whenever `final_ai_text` is non-empty. -/
theorem C10_scan_invariant (msgs : List Msg) (h : final_ai_text_of msgs ≠ []) :
    (∃ m ∈ msgs, m.role = Role.ai ∧ m.toolCalls = false ∧
      final_ai_text_of msgs = normalize_text m.content) ∧
    looks_like_toolcall_text (final_ai_text_of msgs) = false ∧
    (!(final_ai_text_of msgs).isEmpty &&
      !looks_like_toolcall_text (final_ai_text_of msgs)) = true := by
  obtain ⟨⟨m, hm, h1, h2, h3⟩, h4⟩ := finalAiScan_spec msgs.reverse h
  have h' : finalAiScan msgs.reverse ≠ [] := h
  refine ⟨⟨m, List.mem_reverse.mp hm, h1, h2, h3⟩, ?_, ?_⟩
  · rw [final_ai_text_of]
    exact h4
  · rw [final_ai_text_of]
    simp [List.isEmpty_eq_false, h', h4]

/-- Witness for `C10_scan_invariant` at a one-message transcript. -/
theorem C10_witness :
    (∃ m ∈ [msgParis], m.role = Role.ai ∧ m.toolCalls = false ∧
      final_ai_text_of [msgParis] = normalize_text m.content) ∧
    looks_like_toolcall_text (final_ai_text_of [msgParis]) = false ∧
    (!(final_ai_text_of [msgParis]).isEmpty &&
      !looks_like_toolcall_text (final_ai_text_of [msgParis])) = true :=
  C10_scan_invariant [msgParis] (by decide)

end AiAgent
